import Mathlib

/-!
Verification of the data-transformation core of the weekly shopping-list app
(src/weekly_shopping_list_web_app_react.jsx): the CSV codec (`toCSV`,
`parseCSV`), the category normalizer (`normalizeCategory`), the freeform line
importer (`handlePaste`), the CSV importer (`importCSV`) and the duplicate
consolidator (`consolidateDuplicates`), shallowly embedded in Lean.

Modelling conventions:
* JS strings are Lean `String`s (lists of characters); `trim`, `toLowerCase`,
  `split`, `join` and `replaceAll` are re-implemented character by character.
* The JS whitespace class `\s` is modelled by its ASCII/Latin-1 members plus
  the separators U+2028/U+2029 and the BOM; the handful of rarer Unicode
  space code points behave identically for every string considered here.
* JS numbers produced by `parseFloat` are modelled as exact rationals; the
  `Infinity` literal accepted by `parseFloat` is not modelled (it yields
  `none` here).  `String(n)` is modelled exactly for integral values and for
  terminating decimal expansions; non-terminating values (where IEEE-754
  rounding makes the JS result diverge from exact arithmetic anyway) are
  rendered as a fraction.
* `uid()` and `Date.now()` are modelled by the constants `""` and `0`; no
  claim depends on their values, only on their being retained or copied.
* The JS field `have` is a Lean keyword and is called `haveFlag` here.
-/

/-- Whitespace class of JS regular expressions and of `String.prototype.trim`:
space, tab, LF, CR, VT, FF, NBSP, the line/paragraph separators and the BOM. -/
def jsIsSpace (c : Char) : Bool :=
  c = ' ' || c = '\t' || c = '\n' || c = '\r' || c.val = 11 || c.val = 12 ||
  c.val = 0xa0 || c.val = 0x2028 || c.val = 0x2029 || c.val = 0xfeff

/-- Remove the trailing run of characters satisfying `p`. -/
def dropTrailing (p : Char → Bool) (l : List Char) : List Char :=
  (l.reverse.dropWhile p).reverse

/-- Characters of a string with leading and trailing whitespace removed. -/
def trimChars (l : List Char) : List Char :=
  dropTrailing jsIsSpace (l.dropWhile jsIsSpace)

/-- Model of `String.prototype.trim`. -/
def jsTrim (s : String) : String := String.mk (trimChars s.toList)

/-- Model of `String.prototype.toLowerCase` (ASCII case mapping). -/
def jsToLower (s : String) : String := String.mk (s.toList.map Char.toLower)

/-- Model of `Array.prototype.join` with a given separator. -/
def joinWith (sep : String) : List String → String
  | [] => ""
  | [x] => x
  | x :: y :: r => x ++ sep ++ joinWith sep (y :: r)

/-- Concatenation of a list of strings (`join("")`). -/
def concatStrings : List String → String
  | [] => ""
  | s :: r => s ++ concatStrings r

/-- The shopping-list `Item` record.  All optional JS fields are total here,
with `""`/`false` standing for `undefined`, which is how every code path in
scope treats them (`?? ""`, truthiness tests, `filter(Boolean)`). -/
structure Item where
  id : String
  name : String
  quantity : String
  unit : String
  category : String
  notes : String
  haveFlag : Bool
  checked : Bool
  createdAt : Nat
deriving DecidableEq, Repr

/-- Characters of `v.replaceAll('"', '""')`: double every double quote. -/
def escQuoteChars : List Char → List Char
  | [] => []
  | c :: cs => if c = '"' then '"' :: '"' :: escQuoteChars cs else c :: escQuoteChars cs

/-- Characters of one encoded CSV cell: `'"' + v.replaceAll('"','""') + '"'`. -/
def escapedChars (v : String) : List Char :=
  '"' :: (escQuoteChars v.toList ++ ['"'])

def csvEscape (v : String) : String := String.mk (escapedChars v)

/-- The seven cells of one CSV row of `toCSV`, in header order; booleans
render as `TRUE`/`FALSE`. -/
def rowStrings (it : Item) : List String :=
  [it.name, it.quantity, it.unit, it.category, it.notes,
   if it.haveFlag then "TRUE" else "FALSE", if it.checked then "TRUE" else "FALSE"]

def csvHeader : String := "name,quantity,unit,category,notes,have,checked"

/-- `toCSV`: the fixed header line followed by one fully-quoted row per item,
newline-joined (no trailing newline). -/
def toCSV (items : List Item) : String :=
  joinWith "\n" (csvHeader :: items.map (fun it => joinWith "," ((rowStrings it).map csvEscape)))

/-- The character scanner of `parseCSV`.  State: `inQuotes` flag, current
field buffer, current row, rows so far.  Doubled quotes inside a quoted
region produce a literal quote; outside quotes a comma ends the field and a
line terminator (`\n`, `\r`, or `\r\n` as one) ends the field and then ends
the row only when the row now has more than one field or no row has been
produced yet.  At end of input a pending field/row is flushed. -/
def scanCSV : Bool → List Char → List String → List (List String) → List Char →
    List (List String)
  | _, field, row, rows, [] =>
      if field ≠ [] ∨ row ≠ [] then rows ++ [row ++ [String.mk field]] else rows
  | true, field, row, rows, '"' :: '"' :: cs => scanCSV true (field ++ ['"']) row rows cs
  | true, field, row, rows, '"' :: cs => scanCSV false field row rows cs
  | true, field, row, rows, c :: cs => scanCSV true (field ++ [c]) row rows cs
  | false, field, row, rows, '"' :: cs => scanCSV true field row rows cs
  | false, field, row, rows, ',' :: cs => scanCSV false [] (row ++ [String.mk field]) rows cs
  | false, field, row, rows, '\r' :: '\n' :: cs =>
      if (row ++ [String.mk field]).length > 1 ∨ rows = [] then
        scanCSV false [] [] (rows ++ [row ++ [String.mk field]]) cs
      else scanCSV false [] (row ++ [String.mk field]) rows cs
  | false, field, row, rows, '\n' :: cs =>
      if (row ++ [String.mk field]).length > 1 ∨ rows = [] then
        scanCSV false [] [] (rows ++ [row ++ [String.mk field]]) cs
      else scanCSV false [] (row ++ [String.mk field]) rows cs
  | false, field, row, rows, '\r' :: cs =>
      if (row ++ [String.mk field]).length > 1 ∨ rows = [] then
        scanCSV false [] [] (rows ++ [row ++ [String.mk field]]) cs
      else scanCSV false [] (row ++ [String.mk field]) rows cs
  | false, field, row, rows, c :: cs => scanCSV false (field ++ [c]) row rows cs

/-- The list of raw rows computed by the scanning loop of `parseCSV`. -/
def csvRows (text : String) : List (List String) := scanCSV false [] [] [] text.toList

/-- JS-object insertion `obj[k] = v`: replace the value of an existing key in
place, else append the new key. -/
def objSet : List (String × String) → String → String → List (String × String)
  | [], k, v => [(k, v)]
  | p :: rest, k, v => if p.1 = k then (k, v) :: rest else p :: objSet rest k v

/-- JS-object read with `|| ""` semantics: a missing key yields `""`. -/
def objGet (r : List (String × String)) (k : String) : String :=
  match r.find? (fun p => p.1 == k) with
  | some p => p.2
  | none => ""

/-- `header.forEach((h, idx) => obj[h] = rows[r][idx] ?? "")`. -/
def buildRowObj (header : List String) (vals : List String) : List (String × String) :=
  (header.enum).foldl (fun obj p => objSet obj p.2 (vals.getD p.1 "")) []

/-- `parseCSV`: scan the raw rows; the first row (lowercased, trimmed) is the
header; every later row becomes a header-keyed mapping; rows whose values
join and trim to the empty string are dropped. -/
def parseCSV (text : String) : List (List (String × String)) :=
  match csvRows text with
  | [] => []
  | hrow :: rest =>
      (rest.map (buildRowObj (hrow.map (fun h => jsToLower (jsTrim h))))).filter
        (fun obj => jsTrim (concatStrings (obj.map Prod.snd)) != "")

/-- `normalizeCategory`: an empty label yields `"Other"`; otherwise the first
category whose lowercase form equals the lowercased trimmed label is returned
in its canonical casing, and failing that the trimmed label itself. -/
def normalizeCategory (c : String) (categories : List String) : String :=
  if c = "" then "Other"
  else
    match categories.find? (fun cat => jsToLower cat == jsToLower (jsTrim c)) with
    | some found => found
    | none => jsTrim c

/-- Value of a list of decimal digit characters. -/
def digitsToNat (l : List Char) : Nat :=
  l.foldl (fun n c => 10 * n + (c.toNat - '0'.toNat)) 0

/-- Model of `parseFloat`: skip leading whitespace, optional sign, decimal
digits with optional fraction, then an optional exponent that is consumed
only when digits follow it; trailing garbage is ignored; `none` when no
digits are found (`NaN`).  The `Infinity` literal is not modelled. -/
def parseFloat? (s : String) : Option ℚ :=
  let l := s.toList.dropWhile jsIsSpace
  let neg := l.head? = some '-'
  let l1 := if l.head? = some '-' ∨ l.head? = some '+' then l.tail else l
  let ip := l1.takeWhile Char.isDigit
  let l2 := l1.dropWhile Char.isDigit
  let fp := if l2.head? = some '.' then l2.tail.takeWhile Char.isDigit else []
  let l3 := if l2.head? = some '.' then l2.tail.dropWhile Char.isDigit else l2
  if ip.isEmpty ∧ fp.isEmpty then none
  else
    let m : Nat := digitsToNat ip * 10 ^ fp.length + digitsToNat fp
    let r := l3.tail
    let r2 := if r.head? = some '-' ∨ r.head? = some '+' then r.tail else r
    let ed := r2.takeWhile Char.isDigit
    let hasExp := (l3.head? = some 'e' ∨ l3.head? = some 'E') ∧ ¬ ed.isEmpty
    let num : Nat := if hasExp ∧ ¬ r.head? = some '-' then m * 10 ^ digitsToNat ed else m
    let den : Nat :=
      10 ^ fp.length * (if hasExp ∧ r.head? = some '-' then 10 ^ digitsToNat ed else 1)
    some (mkRat (if neg then -(num : Int) else (num : Int)) den)

/-- Left-pad with zeros to width `k`. -/
def natPadZeros (k : Nat) (s : String) : String :=
  String.mk (List.replicate (k - s.length) '0') ++ s

/-- Model of JS `String(n)` for the numbers produced here: integral values
print as plain integers; values with a terminating decimal expansion print
with their shortest decimal tail; non-terminating values (where the IEEE-754
double held by JS already differs from the exact rational) are rendered as a
fraction. -/
def ratToString (q : ℚ) : String :=
  if q.den = 1 then toString q.num
  else
    match (List.range 400).find? (fun k => q.den ∣ 10 ^ k) with
    | some k =>
        let m : Nat := q.num.natAbs * 10 ^ k / q.den
        (if q.num < 0 then "-" else "") ++ toString (m / 10 ^ k) ++ "." ++
          natPadZeros k (toString (m % 10 ^ k))
    | none => toString q.num ++ "/" ++ toString q.den

/-- The rational sum `a + b`, written through `mkRat` so that it evaluates by
kernel reduction (`Rat.add` is irreducible); `ratAdd_eq_add` identifies it
with `+`. -/
def ratAdd (a b : ℚ) : ℚ := mkRat (a.num * b.den + b.num * a.den) (a.den * b.den)

/-- `[ ... ].filter(Boolean).join("; ")`: semicolon-join the nonempty pieces. -/
def joinSemis (l : List String) : String := joinWith "; " (l.filter (fun s => s != ""))

/-- The merge applied by `consolidateDuplicates` when a second item with the
kept item's key arrives: numeric addition of quantities when both quantities
are nonempty, the units are identical and both parse; otherwise an audit
trail appended to `notes`; `have`/`checked` are AND-ed in every branch. -/
def mergeDup (cur it : Item) : Item :=
  let base :=
    if cur.quantity ≠ "" ∧ it.quantity ≠ "" ∧ cur.unit = it.unit then
      match parseFloat? cur.quantity, parseFloat? it.quantity with
      | some a, some b => { cur with quantity := ratToString (ratAdd a b) }
      | _, _ => { cur with notes := joinSemis [cur.notes, it.quantity] }
    else
      { cur with notes := joinSemis [cur.notes,
          if it.quantity ≠ "" ∧ it.unit ≠ "" then it.quantity ++ " " ++ it.unit
          else if it.quantity ≠ "" then it.quantity else "", it.notes] }
  { base with haveFlag := cur.haveFlag && it.haveFlag, checked := cur.checked && it.checked }

/-- The consolidation key: lowercased name and lowercased category. -/
def itemKey (it : Item) : String := jsToLower it.name ++ "|" ++ jsToLower it.category

/-- One step of the `Map`-based accumulation in `consolidateDuplicates`:
merge into the existing entry with this item's key, else append a new entry
(insertion order preserved, as for a JS `Map`). -/
def upsert : List (String × Item) → Item → List (String × Item)
  | [], it => [(itemKey it, it)]
  | p :: rest, it =>
      if p.1 = itemKey it then (p.1, mergeDup p.2 it) :: rest else p :: upsert rest it

def consAux : List (String × Item) → List Item → List (String × Item)
  | acc, [] => acc
  | acc, it :: rest => consAux (upsert acc it) rest

/-- `consolidateDuplicates`: fold the collection through the keyed map and
return the merged records in first-seen key order. -/
def consolidateDuplicates (items : List Item) : List Item :=
  (consAux [] items).map Prod.snd

/-- JS `a || b` on strings: `a` unless it is empty. -/
def jsOr (a b : String) : String := if a = "" then b else a

/-- Model of `/true|yes|y|1/i.test(s)`: some alternative occurs, case
insensitively, as a substring anywhere in `s`. -/
def truthyTest (s : String) : Bool :=
  decide ("true".toList <:+: (jsToLower s).toList) ||
  decide ("yes".toList <:+: (jsToLower s).toList) ||
  decide ("y".toList <:+: (jsToLower s).toList) ||
  decide ("1".toList <:+: (jsToLower s).toList)

/-- The per-row mapping of `importCSV`: read the recognized header aliases
(first nonempty wins), trim, normalize the category, test the truthy pattern
on `have`/`checked`.  `uid()`/`Date.now()` are modelled as `""`/`0`. -/
def itemOfRow (categories : List String) (r : List (String × String)) : Item :=
  { id := ""
    name := jsTrim (jsOr (objGet r "item") (jsOr (objGet r "name")
      (jsOr (objGet r "product") (objGet r "ingredient"))))
    quantity := jsTrim (jsOr (objGet r "qty") (jsOr (objGet r "quantity") (objGet r "amount")))
    unit := jsTrim (jsOr (objGet r "unit") (objGet r "units"))
    category := normalizeCategory (jsOr (objGet r "category") (jsOr (objGet r "section")
      (jsOr (objGet r "aisle") (objGet r "dept")))) categories
    notes := jsTrim (jsOr (objGet r "notes") (jsOr (objGet r "note") (objGet r "details")))
    haveFlag := truthyTest (objGet r "have")
    checked := truthyTest (objGet r "checked")
    createdAt := 0 }

/-- `importCSV`: decode, map every row to an item, drop items whose name is
empty. -/
def importCSV (text : String) (categories : List String) : List Item :=
  ((parseCSV text).map (itemOfRow categories)).filter (fun x => x.name != "")

/-- Model of `text.split(/\r?\n/)`: split at `\n` or `\r\n`; a lone `\r` is
not a separator. -/
def splitLinesAux (cur : List Char) : List Char → List String
  | [] => [String.mk cur.reverse]
  | '\r' :: '\n' :: rest => String.mk cur.reverse :: splitLinesAux [] rest
  | '\n' :: rest => String.mk cur.reverse :: splitLinesAux [] rest
  | c :: rest => splitLinesAux (c :: cur) rest

def splitLinesJS (s : String) : List String := splitLinesAux [] s.toList

def isAsciiLetter (c : Char) : Bool := ('a' ≤ c && c ≤ 'z') || ('A' ≤ c && c ≤ 'Z')

/-- The character class `[\d\/\.]` of the quantity tail. -/
def isQtyChar (c : Char) : Bool := c.isDigit || c = '/' || c = '.'

/-- What the JS regex `.` matches: any character except the four line
terminators. -/
def isDotChar (c : Char) : Bool :=
  !(c = '\n' || c = '\r' || c.val = 0x2028 || c.val = 0x2029)

/-- Deterministic rendering of the anchored greedy JS regex
`/^\s*(\d+[\d\/\.]*)\s+([a-zA-Z]+)\s+(.+)$/` used by `handlePaste`.  Because
the whitespace, digit/quantity and letter classes are pairwise disjoint, the
greedy backtracking search reduces to maximal-run scans; the only live
backtracking point is the final `\s+(.+)$`, which when nothing follows the
last whitespace run gives one whitespace character back to `(.+)` (possible
only when that run has at least two characters and its last character is
matched by `.`). -/
def matchQtyUnitName (left : String) : Option (String × String × String) :=
  let l0 := left.toList.dropWhile jsIsSpace
  let ds := l0.takeWhile Char.isDigit
  if ds.isEmpty then none else
  let more := (l0.dropWhile Char.isDigit).takeWhile isQtyChar
  let l2 := (l0.dropWhile Char.isDigit).dropWhile isQtyChar
  let sp1 := l2.takeWhile jsIsSpace
  if sp1.isEmpty then none else
  let l3 := l2.dropWhile jsIsSpace
  let us := l3.takeWhile isAsciiLetter
  if us.isEmpty then none else
  let l4 := l3.dropWhile isAsciiLetter
  let sp2 := l4.takeWhile jsIsSpace
  if sp2.isEmpty then none else
  let l5 := l4.dropWhile jsIsSpace
  if l5.isEmpty then
    match sp2.getLast? with
    | some cl =>
        if 2 ≤ sp2.length ∧ isDotChar cl = true then
          some (String.mk (ds ++ more), String.mk us, String.mk [cl])
        else none
    | none => none
  else
    if l5.all isDotChar then some (String.mk (ds ++ more), String.mk us, String.mk l5)
    else none

/-- One line of `handlePaste`: split at the first pipe (the category, when
present and nonempty after trimming, is the segment between the first and
second pipes), then try the quantity/unit/name pattern on the left part,
falling back to the trimmed left part as the name. -/
def parseLine (line : String) : Item :=
  let left := String.mk (line.toList.takeWhile (fun c => c ≠ '|'))
  let category :=
    match line.toList.dropWhile (fun c => c ≠ '|') with
    | [] => "Other"
    | _ :: r =>
        if jsTrim (String.mk (r.takeWhile (fun c => c ≠ '|'))) != "" then
          jsTrim (String.mk (r.takeWhile (fun c => c ≠ '|')))
        else "Other"
  match matchQtyUnitName left with
  | some (q, u, n) => ⟨"", n, q, u, category, "", false, false, 0⟩
  | none => ⟨"", jsTrim left, "", "", category, "", false, false, 0⟩

/-- `handlePaste`: one item per line that is nonempty after trimming. -/
def handlePaste (text : String) : List Item :=
  (((splitLinesJS text).map jsTrim).filter (fun l => l != "")).map parseLine

/-- Modelled from the spec (claim C1 wording): the same scanner as `scanCSV`
except that a line terminator finishes the row exactly when it is NOT the
very first row boundary encountered or the row has more than one field; the
flag `seen` records whether a boundary was encountered before. -/
def scanClaimC1 : Bool → List Char → List String → List (List String) → Bool → List Char →
    List (List String)
  | _, field, row, rows, _, [] =>
      if field ≠ [] ∨ row ≠ [] then rows ++ [row ++ [String.mk field]] else rows
  | true, field, row, rows, seen, '"' :: '"' :: cs =>
      scanClaimC1 true (field ++ ['"']) row rows seen cs
  | true, field, row, rows, seen, '"' :: cs => scanClaimC1 false field row rows seen cs
  | true, field, row, rows, seen, c :: cs => scanClaimC1 true (field ++ [c]) row rows seen cs
  | false, field, row, rows, seen, '"' :: cs => scanClaimC1 true field row rows seen cs
  | false, field, row, rows, seen, ',' :: cs =>
      scanClaimC1 false [] (row ++ [String.mk field]) rows seen cs
  | false, field, row, rows, seen, '\r' :: '\n' :: cs =>
      if seen = true ∨ (row ++ [String.mk field]).length > 1 then
        scanClaimC1 false [] [] (rows ++ [row ++ [String.mk field]]) true cs
      else scanClaimC1 false [] (row ++ [String.mk field]) rows true cs
  | false, field, row, rows, seen, '\n' :: cs =>
      if seen = true ∨ (row ++ [String.mk field]).length > 1 then
        scanClaimC1 false [] [] (rows ++ [row ++ [String.mk field]]) true cs
      else scanClaimC1 false [] (row ++ [String.mk field]) rows true cs
  | false, field, row, rows, seen, '\r' :: cs =>
      if seen = true ∨ (row ++ [String.mk field]).length > 1 then
        scanClaimC1 false [] [] (rows ++ [row ++ [String.mk field]]) true cs
      else scanClaimC1 false [] (row ++ [String.mk field]) rows true cs
  | false, field, row, rows, seen, c :: cs => scanClaimC1 false (field ++ [c]) row rows seen cs

def csvRowsClaimC1 (text : String) : List (List String) :=
  scanClaimC1 false [] [] [] false text.toList

/-- Modelled from the spec (amended C1 wording): a line terminator finishes
the row exactly when it IS the very first row boundary encountered or the
row has more than one field. -/
def scanAmendC1 : Bool → List Char → List String → List (List String) → Bool → List Char →
    List (List String)
  | _, field, row, rows, _, [] =>
      if field ≠ [] ∨ row ≠ [] then rows ++ [row ++ [String.mk field]] else rows
  | true, field, row, rows, seen, '"' :: '"' :: cs =>
      scanAmendC1 true (field ++ ['"']) row rows seen cs
  | true, field, row, rows, seen, '"' :: cs => scanAmendC1 false field row rows seen cs
  | true, field, row, rows, seen, c :: cs => scanAmendC1 true (field ++ [c]) row rows seen cs
  | false, field, row, rows, seen, '"' :: cs => scanAmendC1 true field row rows seen cs
  | false, field, row, rows, seen, ',' :: cs =>
      scanAmendC1 false [] (row ++ [String.mk field]) rows seen cs
  | false, field, row, rows, seen, '\r' :: '\n' :: cs =>
      if seen = false ∨ (row ++ [String.mk field]).length > 1 then
        scanAmendC1 false [] [] (rows ++ [row ++ [String.mk field]]) true cs
      else scanAmendC1 false [] (row ++ [String.mk field]) rows true cs
  | false, field, row, rows, seen, '\n' :: cs =>
      if seen = false ∨ (row ++ [String.mk field]).length > 1 then
        scanAmendC1 false [] [] (rows ++ [row ++ [String.mk field]]) true cs
      else scanAmendC1 false [] (row ++ [String.mk field]) rows true cs
  | false, field, row, rows, seen, '\r' :: cs =>
      if seen = false ∨ (row ++ [String.mk field]).length > 1 then
        scanAmendC1 false [] [] (rows ++ [row ++ [String.mk field]]) true cs
      else scanAmendC1 false [] (row ++ [String.mk field]) rows true cs
  | false, field, row, rows, seen, c :: cs => scanAmendC1 false (field ++ [c]) row rows seen cs

def csvRowsAmendC1 (text : String) : List (List String) :=
  scanAmendC1 false [] [] [] false text.toList

/-- Distinct keys of a list in first-seen order. -/
def firstSeenKeys (ks : List String) : List String :=
  ks.foldl (fun acc k => if k ∈ acc then acc else acc ++ [k]) []

/-- The four header fields retained from the first-seen item of a key. -/
def sameHead (a b : Item) : Prop :=
  a.name = b.name ∧ a.category = b.category ∧ a.id = b.id ∧ a.createdAt = b.createdAt

/-- The seven-cell row mapping that decoding a `toCSV` row produces. -/
def itemToRecord (it : Item) : List (String × String) :=
  [("name", it.name), ("quantity", it.quantity), ("unit", it.unit),
   ("category", it.category), ("notes", it.notes),
   ("have", if it.haveFlag then "TRUE" else "FALSE"),
   ("checked", if it.checked then "TRUE" else "FALSE")]

theorem ratAdd_eq_add (a b : ℚ) : ratAdd a b = a + b := (Rat.add_def' a b).symm

theorem toList_mk (l : List Char) : (String.mk l).toList = l := rfl

theorem toList_append (a b : String) : (a ++ b).toList = a.toList ++ b.toList := by
  cases a with
  | mk d1 => cases b with
    | mk d2 => rfl

theorem mk_eq_empty_iff (l : List Char) : String.mk l = "" ↔ l = [] := by
  constructor
  · intro h
    have : (String.mk l).toList = ("" : String).toList := by rw [h]
    simpa using this
  · intro h
    rw [h]

theorem dropWhile_idem (p : Char → Bool) (l : List Char) :
    List.dropWhile p (List.dropWhile p l) = List.dropWhile p l := by
  induction l with
  | nil => rfl
  | cons c cs ih =>
    by_cases h : p c
    · simp [List.dropWhile_cons, h, ih]
    · simp [List.dropWhile_cons, h]

theorem dropTrailing_append (p : Char → Bool) (l : List Char) :
    ∃ suf, l = dropTrailing p l ++ suf := by
  refine ⟨(l.reverse.takeWhile p).reverse, ?_⟩
  have h2 := congrArg List.reverse (List.takeWhile_append_dropWhile p l.reverse)
  rw [List.reverse_append] at h2
  simpa [dropTrailing] using h2.symm

theorem dropTrailing_idem (p : Char → Bool) (l : List Char) :
    dropTrailing p (dropTrailing p l) = dropTrailing p l := by
  simp [dropTrailing, dropWhile_idem]

theorem dropWhile_of_dropTrailing_of_dropWhile (p : Char → Bool) (l : List Char) :
    List.dropWhile p (dropTrailing p (List.dropWhile p l)) =
      dropTrailing p (List.dropWhile p l) := by
  cases hx : List.dropWhile p l with
  | nil => simp [dropTrailing]
  | cons c t =>
    have hc : p c = false := by
      have := List.head?_dropWhile_not p l
      rw [hx] at this
      simpa using this
    obtain ⟨suf, hsuf⟩ := dropTrailing_append p (c :: t)
    cases hd : dropTrailing p (c :: t) with
    | nil => rfl
    | cons c2 t2 =>
      rw [hd] at hsuf
      have hc2 : c2 = c := by
        have := congrArg List.head? hsuf
        simpa using this.symm
      simp [List.dropWhile_cons, hc2, hc]

theorem trimChars_idem (l : List Char) : trimChars (trimChars l) = trimChars l := by
  unfold trimChars
  rw [dropWhile_of_dropTrailing_of_dropWhile, dropTrailing_idem]

theorem jsTrim_idem (s : String) : jsTrim (jsTrim s) = jsTrim s := by
  unfold jsTrim
  rw [toList_mk, trimChars_idem]

theorem trimChars_ne_nil (l : List Char) (c : Char) (hm : c ∈ l)
    (hc : jsIsSpace c = false) : trimChars l ≠ [] := by
  have hmem : c ∈ List.dropWhile jsIsSpace l := by
    have := (List.takeWhile_append_dropWhile jsIsSpace l) ▸ hm
    rcases List.mem_append.mp this with h | h
    · exact absurd (List.mem_takeWhile_imp h) (by simp [hc])
    · exact h
  intro hnil
  have : List.dropWhile jsIsSpace (List.dropWhile jsIsSpace l).reverse = [] := by
    simpa [trimChars, dropTrailing] using congrArg List.reverse hnil
  rw [List.dropWhile_eq_nil_iff] at this
  exact absurd (this c (by simpa using hmem)) (by simp [hc])

theorem jsTrim_ne_empty (s : String) (c : Char) (hm : c ∈ s.toList)
    (hc : jsIsSpace c = false) : jsTrim s ≠ "" := by
  unfold jsTrim
  rw [Ne, mk_eq_empty_iff]
  exact trimChars_ne_nil s.toList c hm hc

/-- C2 counterexample: a whitespace-only label is not mapped to `"Other"` —
`normalizeCategory` only special-cases the empty string, so `" "` trims to
the empty string and is returned as such. -/
theorem normalizeCategory_whitespace_cex :
    normalizeCategory " " ["Produce", "Dairy"] = "" ∧
    normalizeCategory " " ["Produce", "Dairy"] ≠ "Other" := by
  constructor
  · decide
  · decide

/-- C2 (amended): only the empty label maps to `"Other"`; any other label
(whitespace-only included) is matched case-insensitively after trimming
against the category list, the first match being returned in the list's
canonical casing, and with no match the trimmed label itself is returned
(so a whitespace-only label yields the empty string, not `"Other"`). -/
theorem normalizeCategory_amended (c : String) (cats : List String) :
    (c = "" → normalizeCategory c cats = "Other") ∧
    (c ≠ "" → ∀ f, cats.find? (fun cat => jsToLower cat == jsToLower (jsTrim c)) = some f →
      normalizeCategory c cats = f) ∧
    (c ≠ "" → cats.find? (fun cat => jsToLower cat == jsToLower (jsTrim c)) = none →
      normalizeCategory c cats = jsTrim c) := by
  refine ⟨fun h => by simp [normalizeCategory, h], fun h f hf => ?_, fun h hn => ?_⟩
  · simp [normalizeCategory, h, hf]
  · simp [normalizeCategory, h, hn]

/-- Witness for `normalizeCategory_amended` at the spec's three examples. -/
theorem normalizeCategory_amended_witness :
    ("produce" ≠ "" ∧ normalizeCategory "produce" ["Produce", "Dairy"] = "Produce") ∧
    ("Snacks" ≠ "" ∧ normalizeCategory "Snacks" ["Produce"] = "Snacks") ∧
    normalizeCategory "" ["Produce"] = "Other" :=
  ⟨⟨by decide, (normalizeCategory_amended "produce" ["Produce", "Dairy"]).2.1 (by decide)
      "Produce" (by decide)⟩,
   ⟨by decide, (normalizeCategory_amended "Snacks" ["Produce"]).2.2 (by decide) (by decide)⟩,
   (normalizeCategory_amended "" ["Produce"]).1 rfl⟩

/-- C10: the `have`/`checked` flags of an imported row are the unanchored
case-insensitive substring test of `true|yes|y|1` on the column's value; a
missing column reads as `""` and yields `false`, while values such as
`"nay"` or `"2019"` yield `true`. -/
theorem importCSV_truthy_flags (text : String) (cats : List String) :
    (∀ s, truthyTest s = true ↔
      ("true".toList <:+: (jsToLower s).toList ∨ "yes".toList <:+: (jsToLower s).toList ∨
       "y".toList <:+: (jsToLower s).toList ∨ "1".toList <:+: (jsToLower s).toList)) ∧
    ((parseCSV text).map (fun r => (itemOfRow cats r).haveFlag) =
      (parseCSV text).map (fun r => truthyTest (objGet r "have"))) ∧
    ((parseCSV text).map (fun r => (itemOfRow cats r).checked) =
      (parseCSV text).map (fun r => truthyTest (objGet r "checked"))) ∧
    truthyTest "nay" = true ∧ truthyTest "2019" = true ∧ truthyTest "" = false ∧
    truthyTest (objGet [("name", "milk")] "have") = false := by
  refine ⟨fun s => ?_, rfl, rfl, by decide, by decide, by decide, by decide⟩
  simp [truthyTest, Bool.or_eq_true, decide_eq_true_iff, or_assoc]

theorem mergeDup_name (c i : Item) : (mergeDup c i).name = c.name := by
  simp only [mergeDup]
  split
  · split <;> rfl
  · rfl

theorem mergeDup_category (c i : Item) : (mergeDup c i).category = c.category := by
  simp only [mergeDup]
  split
  · split <;> rfl
  · rfl

theorem mergeDup_id (c i : Item) : (mergeDup c i).id = c.id := by
  simp only [mergeDup]
  split
  · split <;> rfl
  · rfl

theorem mergeDup_createdAt (c i : Item) : (mergeDup c i).createdAt = c.createdAt := by
  simp only [mergeDup]
  split
  · split <;> rfl
  · rfl

theorem itemKey_mergeDup (c i : Item) : itemKey (mergeDup c i) = itemKey c := by
  unfold itemKey
  rw [mergeDup_name, mergeDup_category]

theorem sameHead_refl (a : Item) : sameHead a a := ⟨rfl, rfl, rfl, rfl⟩

theorem sameHead_trans {a b c : Item} (h1 : sameHead a b) (h2 : sameHead b c) :
    sameHead a c :=
  ⟨h1.1.trans h2.1, h1.2.1.trans h2.2.1, h1.2.2.1.trans h2.2.2.1, h1.2.2.2.trans h2.2.2.2⟩

theorem sameHead_mergeDup (c i : Item) : sameHead (mergeDup c i) c :=
  ⟨mergeDup_name c i, mergeDup_category c i, mergeDup_id c i, mergeDup_createdAt c i⟩

/-- Folding all later duplicates of a key into its first-seen item. -/
def mergeAll (c : Item) (l : List Item) : Item := l.foldl mergeDup c

theorem sameHead_mergeAll (l : List Item) : ∀ c : Item, sameHead (mergeAll c l) c := by
  induction l with
  | nil => exact fun c => sameHead_refl c
  | cons i r ih =>
    intro c
    exact sameHead_trans (ih (mergeDup c i)) (sameHead_mergeDup c i)

theorem upsert_keys (acc : List (String × Item)) (it : Item) :
    (upsert acc it).map Prod.fst =
      if itemKey it ∈ acc.map Prod.fst then acc.map Prod.fst
      else acc.map Prod.fst ++ [itemKey it] := by
  induction acc with
  | nil => simp [upsert]
  | cons p rest ih =>
    by_cases h : p.1 = itemKey it
    · simp [upsert, h]
    · have h2 : ¬ itemKey it = p.1 := fun he => h he.symm
      rw [show upsert (p :: rest) it = p :: upsert rest it by simp [upsert, h]]
      by_cases hm : itemKey it ∈ rest.map Prod.fst
      · simp [ih, hm, h2]
      · simp [ih, hm, h2]

theorem upsert_good (acc : List (String × Item)) (it : Item)
    (hg : ∀ p ∈ acc, itemKey p.2 = p.1) :
    ∀ p ∈ upsert acc it, itemKey p.2 = p.1 := by
  induction acc with
  | nil =>
    intro p hp
    simp [upsert] at hp
    rw [hp]
  | cons q rest ih =>
    intro p hp
    by_cases h : q.1 = itemKey it
    · rw [show upsert (q :: rest) it = (q.1, mergeDup q.2 it) :: rest by simp [upsert, h]] at hp
      rcases List.mem_cons.mp hp with hp | hp
      · rw [hp]
        simp only [itemKey_mergeDup]
        exact hg q (List.mem_cons_self q rest)
      · exact hg p (List.mem_cons_of_mem q hp)
    · rw [show upsert (q :: rest) it = q :: upsert rest it by simp [upsert, h]] at hp
      rcases List.mem_cons.mp hp with hp | hp
      · exact hg p (by simp [hp])
      · exact ih (fun r hr => hg r (by simp [hr])) p hp

theorem upsert_find_other (acc : List (String × Item)) (it : Item) (k : String)
    (hk : k ≠ itemKey it) :
    (upsert acc it).find? (fun p => p.1 == k) = acc.find? (fun p => p.1 == k) := by
  induction acc with
  | nil =>
    have hb : (itemKey it == k) = false := beq_eq_false_iff_ne.mpr fun he => hk he.symm
    simp [upsert, List.find?, hb]
  | cons q rest ih =>
    by_cases h : q.1 = itemKey it
    · have hb : (q.1 == k) = false := beq_eq_false_iff_ne.mpr fun he => hk (he ▸ h)
      rw [show upsert (q :: rest) it = (q.1, mergeDup q.2 it) :: rest by simp [upsert, h]]
      simp [List.find?, hb]
    · rw [show upsert (q :: rest) it = q :: upsert rest it by simp [upsert, h]]
      by_cases hq : q.1 = k
      · simp [List.find?, hq]
      · have hb : (q.1 == k) = false := beq_eq_false_iff_ne.mpr hq
        simp [List.find?, hb, ih]

theorem upsert_find_self (acc : List (String × Item)) (it : Item) :
    (upsert acc it).find? (fun p => p.1 == itemKey it) =
      some (match acc.find? (fun p => p.1 == itemKey it) with
            | some p => (p.1, mergeDup p.2 it)
            | none => (itemKey it, it)) := by
  induction acc with
  | nil => simp [upsert, List.find?]
  | cons q rest ih =>
    by_cases h : q.1 = itemKey it
    · rw [show upsert (q :: rest) it = (q.1, mergeDup q.2 it) :: rest by simp [upsert, h]]
      simp [List.find?, h]
    · rw [show upsert (q :: rest) it = q :: upsert rest it by simp [upsert, h]]
      have hb : (q.1 == itemKey it) = false := beq_eq_false_iff_ne.mpr h
      simp [List.find?, hb, ih]

theorem consAux_keys (l : List Item) : ∀ acc : List (String × Item),
    (consAux acc l).map Prod.fst =
      l.foldl (fun ks it => if itemKey it ∈ ks then ks else ks ++ [itemKey it])
        (acc.map Prod.fst) := by
  induction l with
  | nil => intro acc; rfl
  | cons it rest ih =>
    intro acc
    rw [show consAux acc (it :: rest) = consAux (upsert acc it) rest from rfl, ih,
      upsert_keys, List.foldl_cons]

theorem consAux_good (l : List Item) : ∀ acc : List (String × Item),
    (∀ p ∈ acc, itemKey p.2 = p.1) → ∀ p ∈ consAux acc l, itemKey p.2 = p.1 := by
  induction l with
  | nil => intro acc h; exact h
  | cons it rest ih =>
    intro acc h
    exact ih (upsert acc it) (upsert_good acc it h)

theorem consAux_find (l : List Item) : ∀ (acc : List (String × Item)) (k : String),
    (consAux acc l).find? (fun p => p.1 == k) =
      match acc.find? (fun p => p.1 == k), l.filter (fun it => itemKey it == k) with
      | some p, fs => some (p.1, mergeAll p.2 fs)
      | none, [] => none
      | none, f :: rest => some (k, mergeAll f rest) := by
  induction l with
  | nil =>
    intro acc k
    cases h : acc.find? (fun p => p.1 == k) with
    | none => simp [consAux, h]
    | some p => simp [consAux, h, mergeAll]
  | cons it rest ih =>
    intro acc k
    rw [show consAux acc (it :: rest) = consAux (upsert acc it) rest from rfl, ih]
    by_cases hk : itemKey it = k
    · subst hk
      rw [upsert_find_self, List.filter_cons_of_pos (by simp)]
      cases h : acc.find? (fun p => p.1 == itemKey it) with
      | none => simp [mergeAll]
      | some p => simp [mergeAll]
    · have hb : (itemKey it == k) = false := beq_eq_false_iff_ne.mpr hk
      rw [upsert_find_other acc it k (fun he => hk he.symm), List.filter_cons_of_neg (by simp [hb])]

theorem find?_of_filter_cons {α : Type} (l : List α) (pred : α → Bool) (x : α) (xs : List α)
    (h : l.filter pred = x :: xs) : l.find? pred = some x := by
  induction l with
  | nil => cases h
  | cons a t ih =>
    by_cases hp : pred a
    · rw [List.filter_cons_of_pos hp] at h
      cases h
      simp [List.find?, hp]
    · rw [List.filter_cons_of_neg hp] at h
      have hb : pred a = false := by simpa using hp
      simp [List.find?, hb]
      exact ih h

theorem find?_of_mem_nodupKeys (acc : List (String × Item)) (p : String × Item)
    (hmem : p ∈ acc) (hnd : (acc.map Prod.fst).Nodup) :
    acc.find? (fun q => q.1 == p.1) = some p := by
  induction acc with
  | nil => cases hmem
  | cons q rest ih =>
    rcases List.mem_cons.mp hmem with rfl | hmem2
    · simp [List.find?]
    · have hq : (q.1 == p.1) = false := by
        refine beq_eq_false_iff_ne.mpr fun he => ?_
        have h1 : p.1 ∈ rest.map Prod.fst := List.mem_map_of_mem Prod.fst hmem2
        rw [List.map_cons, List.nodup_cons] at hnd
        exact hnd.1 (he ▸ h1)
      rw [List.map_cons, List.nodup_cons] at hnd
      simp [List.find?, hq, ih hmem2 hnd.2]

theorem foldlIns_nodup (l : List String) : ∀ init : List String, init.Nodup →
    (l.foldl (fun ks k => if k ∈ ks then ks else ks ++ [k]) init).Nodup := by
  induction l with
  | nil => exact fun init h => h
  | cons k rest ih =>
    intro init h
    rw [List.foldl_cons]
    by_cases hm : k ∈ init
    · simpa [hm] using ih init h
    · refine ih _ ?_
      simp [hm, List.Nodup.append h (List.nodup_singleton k) (by simpa using hm)]

theorem foldlIns_mem (l : List String) : ∀ (init : List String) (k : String),
    k ∈ l.foldl (fun ks k2 => if k2 ∈ ks then ks else ks ++ [k2]) init ↔
      k ∈ init ∨ k ∈ l := by
  induction l with
  | nil => simp
  | cons k0 rest ih =>
    intro init k
    rw [List.foldl_cons]
    by_cases hm : k0 ∈ init
    · rw [if_pos hm, ih]
      constructor
      · rintro (h | h)
        · exact Or.inl h
        · exact Or.inr (List.mem_cons_of_mem k0 h)
      · rintro (h | h)
        · exact Or.inl h
        · rcases List.mem_cons.mp h with rfl | h
          · exact Or.inl hm
          · exact Or.inr h
    · rw [if_neg hm, ih]
      simp only [List.mem_append, List.mem_singleton, List.mem_cons]
      tauto

theorem consolidate_map_key (xs : List Item) :
    (consolidateDuplicates xs).map itemKey = firstSeenKeys (xs.map itemKey) := by
  unfold consolidateDuplicates firstSeenKeys
  rw [List.map_map]
  have hgood := consAux_good xs [] (by simp)
  have hmapeq : (consAux [] xs).map (itemKey ∘ Prod.snd) = (consAux [] xs).map Prod.fst :=
    List.map_congr_left (fun p hp => hgood p hp)
  rw [hmapeq, consAux_keys, List.foldl_map]
  rfl

theorem consolidate_keys_nodup (xs : List Item) :
    ((consolidateDuplicates xs).map itemKey).Nodup := by
  rw [consolidate_map_key]
  exact foldlIns_nodup (xs.map itemKey) [] List.nodup_nil

/-- Sample items used by the witnesses. -/
def itemMilk1 : Item := ⟨"a1", "Milk", "1", "gal", "Dairy", "", true, false, 1⟩

def itemMilk2 : Item := ⟨"a2", "milk", "2", "gal", "dairy", "", false, true, 2⟩

def itemCarrot : Item := ⟨"a3", "carrots", "", "", "Produce", "", false, false, 3⟩

def itemBadQty : Item := ⟨"a4", "milk", "a dozen", "gal", "dairy", "note1", true, true, 4⟩

/-- C5: when a second item with the kept item's key is merged and both
quantities are nonempty with identical unit strings, the kept item's quantity
becomes the stringified sum when both quantities parse as numbers (no unit
re-attached, notes untouched); if either fails to parse, the incoming raw
quantity string is instead appended to the kept item's notes, semicolon-joined
with empty pieces skipped. -/
theorem consolidate_numeric_merge (a b : Item) (h1 : a.quantity ≠ "")
    (h2 : b.quantity ≠ "") (h3 : a.unit = b.unit) :
    (∀ qa qb, parseFloat? a.quantity = some qa → parseFloat? b.quantity = some qb →
      (mergeDup a b).quantity = ratToString (qa + qb) ∧ (mergeDup a b).notes = a.notes) ∧
    ((parseFloat? a.quantity = none ∨ parseFloat? b.quantity = none) →
      (mergeDup a b).quantity = a.quantity ∧
      (mergeDup a b).notes = joinSemis [a.notes, b.quantity]) ∧
    (itemKey a = itemKey b → consolidateDuplicates [a, b] = [mergeDup a b]) := by
  refine ⟨fun qa qb hqa hqb => ?_, fun hn => ?_, fun hk => ?_⟩
  · rw [← ratAdd_eq_add]
    constructor <;> simp [mergeDup, h1, h2, h3, hqa, hqb]
  · cases hpa : parseFloat? a.quantity with
    | none => constructor <;> simp [mergeDup, h1, h2, h3, hpa]
    | some qa =>
      cases hpb : parseFloat? b.quantity with
      | none => constructor <;> simp [mergeDup, h1, h2, h3, hpa, hpb]
      | some qb => simp [hpa, hpb] at hn
  · simp [consolidateDuplicates, consAux, upsert, hk]

/-- Witness for `consolidate_numeric_merge`: the spec's milk example
(`"1"` + `"2"` gallons merge to `"3"`), and a non-numeric kept quantity
falling back to the notes audit trail. -/
theorem consolidate_numeric_merge_witness :
    (itemMilk1.quantity ≠ "" ∧ itemMilk2.quantity ≠ "" ∧ itemMilk1.unit = itemMilk2.unit) ∧
    parseFloat? itemMilk1.quantity = some 1 ∧ parseFloat? itemMilk2.quantity = some 2 ∧
    (mergeDup itemMilk1 itemMilk2).quantity = "3" ∧
    parseFloat? itemBadQty.quantity = none ∧
    (mergeDup itemBadQty itemMilk2).notes = "note1; 2" ∧
    itemKey itemMilk1 = itemKey itemMilk2 ∧
    consolidateDuplicates [itemMilk1, itemMilk2] = [mergeDup itemMilk1 itemMilk2] := by
  have hsum := ((consolidate_numeric_merge itemMilk1 itemMilk2 (by decide) (by decide)
    (by decide)).1 1 2 (by decide) (by decide)).1
  have hnotes := ((consolidate_numeric_merge itemBadQty itemMilk2 (by decide) (by decide)
    (by decide)).2.1 (Or.inl (by decide))).2
  have hcons := (consolidate_numeric_merge itemMilk1 itemMilk2 (by decide) (by decide)
    (by decide)).2.2 (by decide)
  refine ⟨by decide, by decide, by decide, ?_, by decide, ?_, by decide, hcons⟩
  · rw [hsum, ← ratAdd_eq_add]
    decide
  · rw [hnotes]
    decide

/-- C6: in every merge branch the merged record's `have` flag is the
conjunction of the two items' `have` flags and likewise for `checked`; a
two-element collection sharing one key consolidates to exactly the merged
record. -/
theorem consolidate_and_flags (a b : Item) :
    (mergeDup a b).haveFlag = (a.haveFlag && b.haveFlag) ∧
    (mergeDup a b).checked = (a.checked && b.checked) ∧
    (itemKey a = itemKey b → consolidateDuplicates [a, b] = [mergeDup a b]) := by
  refine ⟨by simp [mergeDup], by simp [mergeDup], fun hk => ?_⟩
  simp [consolidateDuplicates, consAux, upsert, hk]

/-- Witness for `consolidate_and_flags`: the spec's example — `have=true`
merged with `have=false` under one key yields `have=false`. -/
theorem consolidate_and_flags_witness :
    itemKey itemMilk1 = itemKey itemMilk2 ∧
    consolidateDuplicates [itemMilk1, itemMilk2] = [mergeDup itemMilk1 itemMilk2] ∧
    (mergeDup itemMilk1 itemMilk2).haveFlag = false ∧
    (mergeDup itemMilk1 itemMilk2).checked = false :=
  ⟨by decide, (consolidate_and_flags itemMilk1 itemMilk2).2.2 (by decide),
   by decide, by decide⟩

/-- C7: consolidation keeps exactly one record per distinct key, in first-seen
order (`firstSeenKeys`), and every output record's `name`, `category`, `id`
and `createdAt` come from the first input item with its key. -/
theorem consolidate_structure (xs : List Item) :
    (consolidateDuplicates xs).map itemKey = firstSeenKeys (xs.map itemKey) ∧
    ((consolidateDuplicates xs).map itemKey).Nodup ∧
    (∀ k, k ∈ (consolidateDuplicates xs).map itemKey ↔ k ∈ xs.map itemKey) ∧
    (∀ out, out ∈ consolidateDuplicates xs →
      ∃ f, xs.find? (fun it => itemKey it == itemKey out) = some f ∧ sameHead out f) := by
  refine ⟨consolidate_map_key xs, consolidate_keys_nodup xs, fun k => ?_, fun out hout => ?_⟩
  · rw [consolidate_map_key]
    unfold firstSeenKeys
    rw [foldlIns_mem]
    simp
  · obtain ⟨p, hp, hpe⟩ := List.mem_map.mp hout
    have hgood := consAux_good xs [] (by simp) p hp
    have hnd : ((consAux [] xs).map Prod.fst).Nodup := by
      have hn := consolidate_keys_nodup xs
      unfold consolidateDuplicates at hn
      rw [List.map_map] at hn
      have he : ∀ q ∈ consAux [] xs, (itemKey ∘ Prod.snd) q = Prod.fst q :=
        fun q hq => consAux_good xs [] (by simp) q hq
      rwa [List.map_congr_left he] at hn
    have hfind := find?_of_mem_nodupKeys (consAux [] xs) p hp hnd
    have hca := consAux_find xs [] p.1
    rw [hfind] at hca
    cases hfl : xs.filter (fun it => itemKey it == p.1) with
    | nil => rw [hfl] at hca; simp at hca
    | cons f rest =>
      rw [hfl] at hca
      have hp2 : p = (p.1, mergeAll f rest) := by
        have := Option.some.inj hca
        exact this
      have hkey : itemKey out = p.1 := by rw [← hpe]; exact hgood
      refine ⟨f, ?_, ?_⟩
      · simp only [hkey]
        exact find?_of_filter_cons xs (fun it => itemKey it == p.1) f rest hfl
      · have hout2 : out = mergeAll f rest := by
          rw [← hpe, hp2]
        rw [hout2]
        exact sameHead_mergeAll rest f

/-- Witness for `consolidate_structure`: consolidating two milk items around
a carrot keeps the first-seen milk's header fields. -/
theorem consolidate_structure_witness :
    (mergeDup itemMilk1 itemMilk2 ∈ consolidateDuplicates [itemMilk1, itemCarrot, itemMilk2]) ∧
    ([itemMilk1, itemCarrot, itemMilk2].find?
      (fun it => itemKey it == itemKey (mergeDup itemMilk1 itemMilk2)) = some itemMilk1) ∧
    sameHead (mergeDup itemMilk1 itemMilk2) itemMilk1 := by
  obtain ⟨f, hf, hs⟩ := (consolidate_structure [itemMilk1, itemCarrot, itemMilk2]).2.2.2
    (mergeDup itemMilk1 itemMilk2) (by decide)
  have hfe : f = itemMilk1 := by
    have hv : [itemMilk1, itemCarrot, itemMilk2].find?
        (fun it => itemKey it == itemKey (mergeDup itemMilk1 itemMilk2)) = some itemMilk1 := by
      decide
    rw [hv] at hf
    exact (Option.some.inj hf).symm
  exact ⟨by decide, by decide, hfe ▸ hs⟩

theorem upsert_of_not_memKeys (acc : List (String × Item)) (it : Item)
    (h : itemKey it ∉ acc.map Prod.fst) :
    upsert acc it = acc ++ [(itemKey it, it)] := by
  induction acc with
  | nil => rfl
  | cons q rest ih =>
    have hq : ¬ q.1 = itemKey it := fun he => h (by simp [he])
    rw [show upsert (q :: rest) it = q :: upsert rest it by simp [upsert, hq],
      ih (fun hm => h (by simp [hm]))]
    rfl

theorem consAux_of_nodupKeys (l : List Item) : ∀ acc : List (String × Item),
    (acc.map Prod.fst ++ l.map itemKey).Nodup →
    consAux acc l = acc ++ l.map (fun it => (itemKey it, it)) := by
  induction l with
  | nil => intro acc h; simp [consAux]
  | cons it rest ih =>
    intro acc h
    have hnm : itemKey it ∉ acc.map Prod.fst := by
      intro hm
      exact (List.nodup_append.mp h).2.2 hm (by simp)
    rw [show consAux acc (it :: rest) = consAux (upsert acc it) rest from rfl,
      upsert_of_not_memKeys acc it hnm, ih (acc ++ [(itemKey it, it)]) ?_]
    · simp
    · simpa [List.append_assoc] using h

/-- A collection whose keys are already pairwise distinct is returned
unchanged by the consolidator. -/
theorem consolidate_of_nodupKeys (ys : List Item) (h : (ys.map itemKey).Nodup) :
    consolidateDuplicates ys = ys := by
  unfold consolidateDuplicates
  rw [consAux_of_nodupKeys ys [] (by simpa using h)]
  rw [List.nil_append, List.map_map,
    show (Prod.snd ∘ fun it : Item => (itemKey it, it)) = fun it => it from rfl]
  simp

/-- C8: the consolidator is idempotent — consolidating its own output again
changes nothing, because the output's keys are pairwise distinct. -/
theorem consolidate_idempotent (xs : List Item) :
    consolidateDuplicates (consolidateDuplicates xs) = consolidateDuplicates xs :=
  consolidate_of_nodupKeys (consolidateDuplicates xs) (consolidate_keys_nodup xs)

theorem scanAmend_seen_true (field : List Char) (row : List String)
    (rows : List (List String)) (cs : List Char) (h : rows ≠ []) :
    scanAmendC1 false field row rows true cs =
      scanAmendC1 false field row rows (!rows.isEmpty) cs := by
  rw [show (!rows.isEmpty) = true by simp [h]]

theorem scanAmendC1_eq (inQ : Bool) (field : List Char) (row : List String)
    (rows : List (List String)) (cs : List Char) :
    scanAmendC1 inQ field row rows (!rows.isEmpty) cs = scanCSV inQ field row rows cs := by
  induction inQ, field, row, rows, cs using scanCSV.induct <;>
    simp_all [scanAmendC1, scanCSV, or_comm]
  all_goals
    rename_i ih
    rw [scanAmend_seen_true _ _ _ _ (by simp_all)]
    exact ih

/-- C1 counterexample: on `"a\nb"` the very first line terminator, reached
with a one-field row, does finish the row (the code pushes whenever no row
has been produced yet), yielding two rows; the claim's condition — not the
very first boundary, or more than one field — would instead keep `"a"` and
`"b"` inside a single row, as the claim-worded scanner shows. -/
theorem csv_rowBoundary_cex :
    csvRows "a\nb" = [["a"], ["b"]] ∧ csvRowsClaimC1 "a\nb" = [["a", "b"]] :=
  ⟨by decide, by decide⟩

/-- C1 (amended): while scanning outside quotes, a line terminator finishes
the current logical row exactly when it IS the very first row boundary
encountered in the input or the accumulated row (current field included) has
more than one field; `scanAmendC1`, which implements that wording with an
explicit boundary-seen flag, computes the same rows as the `parseCSV`
scanner on every input. -/
theorem csv_rowBoundary_amended (text : String) : csvRowsAmendC1 text = csvRows text := by
  unfold csvRowsAmendC1 csvRows
  have h := scanAmendC1_eq false [] [] [] text.toList
  simpa using h

theorem matchQtyUnitName_sound (left q u n : String)
    (hm : matchQtyUnitName left = some (q, u, n)) :
    ∃ w1 w2 w3, left.toList = w1 ++ q.toList ++ w2 ++ u.toList ++ w3 ++ n.toList ∧
      (∀ c ∈ w1, jsIsSpace c = true) ∧
      (∃ d ds, q.toList = d :: ds ∧ d.isDigit = true) ∧
      (∀ c ∈ q.toList, isQtyChar c = true) ∧
      w2 ≠ [] ∧ (∀ c ∈ w2, jsIsSpace c = true) ∧
      u.toList ≠ [] ∧ (∀ c ∈ u.toList, isAsciiLetter c = true) ∧
      w3 ≠ [] ∧ (∀ c ∈ w3, jsIsSpace c = true) ∧
      n.toList ≠ [] ∧ (∀ c ∈ n.toList, isDotChar c = true) := by
  unfold matchQtyUnitName at hm
  dsimp only at hm
  set w1 := left.toList.takeWhile jsIsSpace with hw1
  set l0 := left.toList.dropWhile jsIsSpace with hl0
  set ds := l0.takeWhile Char.isDigit with hds
  set rest1 := l0.dropWhile Char.isDigit with hrest1
  set more := rest1.takeWhile isQtyChar with hmore
  set l2 := rest1.dropWhile isQtyChar with hl2
  set sp1 := l2.takeWhile jsIsSpace with hsp1
  set l3 := l2.dropWhile jsIsSpace with hl3
  set us := l3.takeWhile isAsciiLetter with hus
  set l4 := l3.dropWhile isAsciiLetter with hl4
  set sp2 := l4.takeWhile jsIsSpace with hsp2
  set l5 := l4.dropWhile jsIsSpace with hl5
  have hsplit0 : left.toList = w1 ++ l0 := (List.takeWhile_append_dropWhile jsIsSpace left.toList).symm
  have hsplit1 : l0 = ds ++ rest1 := (List.takeWhile_append_dropWhile Char.isDigit l0).symm
  have hsplit2 : rest1 = more ++ l2 := (List.takeWhile_append_dropWhile isQtyChar rest1).symm
  have hsplit3 : l2 = sp1 ++ l3 := (List.takeWhile_append_dropWhile jsIsSpace l2).symm
  have hsplit4 : l3 = us ++ l4 := (List.takeWhile_append_dropWhile isAsciiLetter l3).symm
  have hsplit5 : l4 = sp2 ++ l5 := (List.takeWhile_append_dropWhile jsIsSpace l4).symm
  split_ifs at hm with h1 h2 h3 h4 h5 h6
  · -- l5 empty branch: match on sp2.getLast?
    cases hgl : sp2.getLast? with
    | none => rw [hgl] at hm; cases hm
    | some cl =>
      rw [hgl] at hm
      dsimp only at hm
      split_ifs at hm with h6
      obtain ⟨hq, hu, hn⟩ : String.mk (ds ++ more) = q ∧ String.mk us = u ∧ String.mk [cl] = n := by
        have := Option.some.inj hm
        exact ⟨congrArg Prod.fst this, congrArg (fun p => p.2.1) this, congrArg (fun p => p.2.2) this⟩
      have hsp2ne : sp2 ≠ [] := by
        intro he; rw [he] at hgl; cases hgl
      have hcl : cl = sp2.getLast hsp2ne := by
        have := List.getLast?_eq_getLast sp2 hsp2ne
        rw [hgl] at this
        exact Option.some.inj this
      have hsp2split : sp2 = sp2.dropLast ++ [cl] := by
        rw [hcl]
        exact (List.dropLast_concat_getLast hsp2ne).symm
      have hl5e : l5 = [] := by simpa using h5
      refine ⟨w1, sp1, sp2.dropLast, ?_, ?_, ?_, ?_, ?_, ?_, ?_, ?_, ?_, ?_, ?_, ?_⟩
      · rw [hsplit0, hsplit1, hsplit2, hsplit3, hsplit4, hsplit5, hl5e, hsp2split, ← hq, ← hu, ← hn]
        simp [toList_mk]
      · exact fun c hc => List.mem_takeWhile_imp hc
      · rcases hd : ds with _ | ⟨d, ds2⟩
        · rw [hd] at h1; simp at h1
        · refine ⟨d, ds2 ++ more, ?_, ?_⟩
          · rw [← hq, toList_mk, hd]; rfl
          · have : d ∈ ds := by rw [hd]; exact List.mem_cons_self d ds2
            exact List.mem_takeWhile_imp this
      · intro c hc
        rw [← hq, toList_mk] at hc
        rcases List.mem_append.mp hc with hc | hc
        · have := List.mem_takeWhile_imp hc
          simp [isQtyChar, this]
        · exact List.mem_takeWhile_imp hc
      · intro he; rw [he] at h2; simp at h2
      · exact fun c hc => List.mem_takeWhile_imp hc
      · rw [← hu, toList_mk]; intro he; rw [he] at h3; simp at h3
      · rw [← hu, toList_mk]; exact fun c hc => List.mem_takeWhile_imp hc
      · intro he
        have := congrArg List.length hsp2split
        rw [he] at this
        simp at this
        omega
      · intro c hc
        have : c ∈ sp2 := (List.dropLast_sublist sp2).subset hc
        exact List.mem_takeWhile_imp this
      · rw [← hn, toList_mk]; simp
      · intro c hc
        rw [← hn, toList_mk] at hc
        rcases List.mem_singleton.mp hc with rfl
        exact h6.2
  · -- l5 nonempty, all dot
    obtain ⟨hq, hu, hn⟩ : String.mk (ds ++ more) = q ∧ String.mk us = u ∧ String.mk l5 = n := by
      have := Option.some.inj hm
      exact ⟨congrArg Prod.fst this, congrArg (fun p => p.2.1) this, congrArg (fun p => p.2.2) this⟩
    refine ⟨w1, sp1, sp2, ?_, ?_, ?_, ?_, ?_, ?_, ?_, ?_, ?_, ?_, ?_, ?_⟩
    · rw [hsplit0, hsplit1, hsplit2, hsplit3, hsplit4, hsplit5, ← hq, ← hu, ← hn]
      simp [toList_mk]
    · exact fun c hc => List.mem_takeWhile_imp hc
    · rcases hd : ds with _ | ⟨d, ds2⟩
      · rw [hd] at h1; simp at h1
      · refine ⟨d, ds2 ++ more, ?_, ?_⟩
        · rw [← hq, toList_mk, hd]; rfl
        · have : d ∈ ds := by rw [hd]; exact List.mem_cons_self d ds2
          exact List.mem_takeWhile_imp this
    · intro c hc
      rw [← hq, toList_mk] at hc
      rcases List.mem_append.mp hc with hc | hc
      · have := List.mem_takeWhile_imp hc
        simp [isQtyChar, this]
      · exact List.mem_takeWhile_imp hc
    · intro he; rw [he] at h2; simp at h2
    · exact fun c hc => List.mem_takeWhile_imp hc
    · rw [← hu, toList_mk]; intro he; rw [he] at h3; simp at h3
    · rw [← hu, toList_mk]; exact fun c hc => List.mem_takeWhile_imp hc
    · intro he; rw [he] at h4; simp at h4
    · exact fun c hc => List.mem_takeWhile_imp hc
    · rw [← hn, toList_mk]; intro he; rw [he] at h5; simp at h5
    · intro c hc
      rw [← hn, toList_mk] at hc
      have := h6
      rw [List.all_eq_true] at this
      exact this c hc

/-- C3 counterexample: `handlePaste` has no name filter — the line `"| Meat"`
is nonempty after trimming but its part before the pipe is empty, so a record
whose name is empty (after trimming) enters the produced sequence. -/
theorem handlePaste_emptyName_cex :
    (handlePaste "| Meat").map Item.name = [""] ∧
    (handlePaste "| Meat").map (fun it => jsTrim it.name) = [""] :=
  ⟨by decide, by decide⟩

/-- C3 (amended): every record produced by `importCSV` has a name that is
nonempty after trimming (rows mapping to an empty name are filtered out), but
`handlePaste` performs no such filtering: it yields exactly one record per
line that is nonempty after trimming, and such a record's name can be empty —
for example when the part of the line before the first pipe is blank. -/
theorem importCSV_name_invariant :
    (∀ text cats it, it ∈ importCSV text cats → it.name ≠ "" ∧ jsTrim it.name = it.name) ∧
    (∀ text, (handlePaste text).length =
      (((splitLinesJS text).map jsTrim).filter (fun l => l != "")).length) := by
  constructor
  · intro text cats it hit
    unfold importCSV at hit
    obtain ⟨hmem, hname⟩ := List.mem_filter.mp hit
    obtain ⟨r, hr, hre⟩ := List.mem_map.mp hmem
    have hne : it.name ≠ "" := by simpa using hname
    refine ⟨hne, ?_⟩
    have : it.name = jsTrim (jsOr (objGet r "item") (jsOr (objGet r "name")
        (jsOr (objGet r "product") (objGet r "ingredient")))) := by
      rw [← hre]
      rfl
    rw [this, jsTrim_idem]
  · intro text
    unfold handlePaste
    rw [List.length_map]

/-- Witness for `importCSV_name_invariant` at a concrete import. -/
theorem importCSV_name_invariant_witness :
    ((⟨"", "milk", "", "", "Other", "", false, false, 0⟩ : Item) ∈ importCSV "name\nmilk" []) ∧
    (⟨"", "milk", "", "", "Other", "", false, false, 0⟩ : Item).name ≠ "" ∧
    jsTrim (⟨"", "milk", "", "", "Other", "", false, false, 0⟩ : Item).name =
      (⟨"", "milk", "", "", "Other", "", false, false, 0⟩ : Item).name ∧
    (handlePaste "carrots\n\nmilk").length =
      (((splitLinesJS "carrots\n\nmilk").map jsTrim).filter (fun l => l != "")).length := by
  have h := importCSV_name_invariant.1 "name\nmilk" []
    ⟨"", "milk", "", "", "Other", "", false, false, 0⟩ (by decide)
  exact ⟨by decide, h.1, h.2, importCSV_name_invariant.2 "carrots\n\nmilk"⟩

/-- C4 counterexample: on `"2 lb chicken breast | Meat"` the greedy `(.+)$`
of the quantity/unit/name pattern captures up to the pipe split point, so the
produced name is `"chicken breast "` — with a trailing space — and not the
claimed `"chicken breast"`. -/
theorem handlePaste_trailingSpace_cex :
    (handlePaste "2 lb chicken breast | Meat").map
      (fun it => (it.quantity, it.unit, it.name, it.category)) =
      [("2", "lb", "chicken breast ", "Meat")] ∧
    (handlePaste "2 lb chicken breast | Meat").map Item.name ≠ ["chicken breast"] :=
  ⟨by decide, by decide⟩

/-- C4 (amended): for each nonempty-after-trim line, the part before the
first pipe is matched against the quantity/unit/name pattern: on success the
quantity is a digit-initial token of digits/slashes/dots, the unit the purely
alphabetic token after intervening whitespace, and the name everything after
the next whitespace run, exactly as written with whitespace preserved — so
`"2 lb chicken breast | Meat"` yields quantity `"2"`, unit `"lb"`, category
`"Meat"` and name `"chicken breast "` with its trailing space; on failure the
trimmed left part becomes the name with empty quantity and unit, as in
`"carrots"`. -/
theorem handlePaste_line_spec :
    (∀ left q u n, matchQtyUnitName left = some (q, u, n) →
      ∃ w1 w2 w3, left.toList = w1 ++ q.toList ++ w2 ++ u.toList ++ w3 ++ n.toList ∧
        (∀ c ∈ w1, jsIsSpace c = true) ∧
        (∃ d ds, q.toList = d :: ds ∧ d.isDigit = true) ∧
        (∀ c ∈ q.toList, isQtyChar c = true) ∧
        w2 ≠ [] ∧ (∀ c ∈ w2, jsIsSpace c = true) ∧
        u.toList ≠ [] ∧ (∀ c ∈ u.toList, isAsciiLetter c = true) ∧
        w3 ≠ [] ∧ (∀ c ∈ w3, jsIsSpace c = true) ∧
        n.toList ≠ [] ∧ (∀ c ∈ n.toList, isDotChar c = true)) ∧
    (∀ line, matchQtyUnitName (String.mk (line.toList.takeWhile (fun c => c ≠ '|'))) = none →
      (parseLine line).name = jsTrim (String.mk (line.toList.takeWhile (fun c => c ≠ '|'))) ∧
      (parseLine line).quantity = "" ∧ (parseLine line).unit = "") ∧
    ((handlePaste "2 lb chicken breast | Meat").map
      (fun it => (it.quantity, it.unit, it.name, it.category)) =
      [("2", "lb", "chicken breast ", "Meat")]) ∧
    ((handlePaste "carrots").map
      (fun it => (it.quantity, it.unit, it.name, it.category)) =
      [("", "", "carrots", "Other")]) := by
  refine ⟨fun left q u n hm => matchQtyUnitName_sound left q u n hm,
    fun line hm => ?_, by decide, by decide⟩
  unfold parseLine
  dsimp only
  rw [hm]
  exact ⟨rfl, rfl, rfl⟩

/-- Witness for `handlePaste_line_spec`, discharging both pattern hypotheses
at concrete lines. -/
theorem handlePaste_line_spec_witness :
    (∃ w1 w2 w3, ("2 lb chicken breast " : String).toList =
      w1 ++ ("2" : String).toList ++ w2 ++ ("lb" : String).toList ++ w3 ++
        ("chicken breast " : String).toList) ∧
    (parseLine "carrots").name =
      jsTrim (String.mk ("carrots".toList.takeWhile (fun c => c ≠ '|'))) := by
  constructor
  · obtain ⟨w1, w2, w3, heq, hrest⟩ := handlePaste_line_spec.1 "2 lb chicken breast "
      "2" "lb" "chicken breast " (by decide)
    exact ⟨w1, w2, w3, heq⟩
  · exact (handlePaste_line_spec.2.1 "carrots" (by decide)).1

/-- One data line of `toCSV`. -/
def rowLine (it : Item) : String := joinWith "," ((rowStrings it).map csvEscape)

/-- Characters of the comma-joined escaped cells of a row. -/
def fieldsChars : List String → List Char
  | [] => []
  | [v] => escapedChars v
  | v :: rest => escapedChars v ++ ',' :: fieldsChars rest

/-- Characters contributed by the later lines of a newline join. -/
def tailChars : List String → List Char
  | [] => []
  | l :: ls => '\n' :: (l.toList ++ tailChars ls)

theorem fieldsChars_cons (v : String) (rest : List String) (h : rest ≠ []) :
    fieldsChars (v :: rest) = escapedChars v ++ ',' :: fieldsChars rest := by
  cases rest with
  | nil => cases h rfl
  | cons y r => rfl

theorem joinComma_toList (vs : List String) :
    (joinWith "," (vs.map csvEscape)).toList = fieldsChars vs := by
  induction vs with
  | nil => rfl
  | cons v rest ih =>
    cases rest with
    | nil => simp [joinWith, fieldsChars, csvEscape, toList_mk]
    | cons y r =>
      rw [fieldsChars_cons v (y :: r) (by simp)]
      simp only [List.map_cons] at ih ⊢
      rw [show joinWith "," (csvEscape v :: csvEscape y :: r.map csvEscape) =
        csvEscape v ++ "," ++ joinWith "," (csvEscape y :: r.map csvEscape) from rfl]
      rw [toList_append, toList_append, ih]
      simp [csvEscape, toList_mk]

theorem joinLines_toList (x : String) (xs : List String) :
    (joinWith "\n" (x :: xs)).toList = x.toList ++ tailChars xs := by
  induction xs generalizing x with
  | nil => simp [joinWith, tailChars]
  | cons y r ih =>
    rw [show joinWith "\n" (x :: y :: r) = x ++ "\n" ++ joinWith "\n" (y :: r) from rfl]
    rw [toList_append, toList_append, ih y]
    simp [tailChars]

theorem rowLine_toList (it : Item) : (rowLine it).toList = fieldsChars (rowStrings it) :=
  joinComma_toList (rowStrings it)

theorem scanCSV_quoteClose (f : List Char) (row : List String) (rows : List (List String))
    (cs : List Char) (h : cs.head? ≠ some '"') :
    scanCSV true f row rows ('"' :: cs) = scanCSV false f row rows cs := by
  cases cs with
  | nil => simp [scanCSV]
  | cons c cs2 =>
    have hc : c ≠ '"' := fun he => h (by rw [he]; rfl)
    simp [scanCSV, hc]

theorem scanCSV_escBody (v : List Char) : ∀ (f : List Char) (row : List String)
    (rows : List (List String)) (cs : List Char), cs.head? ≠ some '"' →
    scanCSV true f row rows (escQuoteChars v ++ '"' :: cs) = scanCSV false (f ++ v) row rows cs := by
  induction v with
  | nil =>
    intro f row rows cs hcs
    rw [show escQuoteChars [] = [] from rfl, List.nil_append,
      scanCSV_quoteClose f row rows cs hcs, List.append_nil]
  | cons c v ih =>
    intro f row rows cs hcs
    by_cases hc : c = '"'
    · subst hc
      rw [show escQuoteChars ('"' :: v) = '"' :: '"' :: escQuoteChars v by simp [escQuoteChars],
        List.cons_append, List.cons_append]
      rw [show scanCSV true f row rows ('"' :: '"' :: (escQuoteChars v ++ '"' :: cs)) =
        scanCSV true (f ++ ['"']) row rows (escQuoteChars v ++ '"' :: cs) from rfl]
      rw [ih (f ++ ['"']) row rows cs hcs]
      simp
    · rw [show escQuoteChars (c :: v) = c :: escQuoteChars v by simp [escQuoteChars, hc],
        List.cons_append]
      have hstep : scanCSV true f row rows (c :: (escQuoteChars v ++ '"' :: cs)) =
          scanCSV true (f ++ [c]) row rows (escQuoteChars v ++ '"' :: cs) := by
        simp [scanCSV, hc]
      rw [hstep, ih (f ++ [c]) row rows cs hcs]
      simp

theorem scanCSV_cell (v : String) (f : List Char) (row : List String)
    (rows : List (List String)) (cs : List Char) (hcs : cs.head? ≠ some '"') :
    scanCSV false f row rows (escapedChars v ++ cs) = scanCSV false (f ++ v.toList) row rows cs := by
  rw [show escapedChars v ++ cs = '"' :: (escQuoteChars v.toList ++ '"' :: cs) by
    simp [escapedChars]]
  rw [show scanCSV false f row rows ('"' :: (escQuoteChars v.toList ++ '"' :: cs)) =
    scanCSV true f row rows (escQuoteChars v.toList ++ '"' :: cs) from rfl]
  exact scanCSV_escBody v.toList f row rows cs hcs

theorem scanCSV_cells (init : List String) : ∀ (w : String) (row : List String)
    (rows : List (List String)) (cs : List Char), cs.head? ≠ some '"' →
    scanCSV false [] row rows (fieldsChars (init ++ [w]) ++ cs) =
      scanCSV false w.toList (row ++ init) rows cs := by
  induction init with
  | nil =>
    intro w row rows cs hcs
    rw [List.nil_append, show fieldsChars [w] = escapedChars w from rfl,
      scanCSV_cell w [] row rows cs hcs]
    simp
  | cons v init ih =>
    intro w row rows cs hcs
    rw [List.cons_append, fieldsChars_cons v (init ++ [w]) (by simp), List.append_assoc,
      List.cons_append]
    rw [scanCSV_cell v [] row rows (',' :: (fieldsChars (init ++ [w]) ++ cs)) (by simp)]
    rw [show scanCSV false ([] ++ v.toList) row rows (',' :: (fieldsChars (init ++ [w]) ++ cs)) =
      scanCSV false [] (row ++ [String.mk ([] ++ v.toList)]) rows (fieldsChars (init ++ [w]) ++ cs)
      from rfl]
    rw [ih w (row ++ [String.mk ([] ++ v.toList)]) rows cs hcs]
    simp

theorem rowStrings_split (it : Item) :
    rowStrings it = [it.name, it.quantity, it.unit, it.category, it.notes,
      if it.haveFlag then "TRUE" else "FALSE"] ++
      [if it.checked then "TRUE" else "FALSE"] := rfl

theorem scanCSV_row_nl (it : Item) (rows : List (List String)) (cs : List Char) :
    scanCSV false [] [] rows (fieldsChars (rowStrings it) ++ '\n' :: cs) =
      scanCSV false [] [] (rows ++ [rowStrings it]) cs := by
  rw [rowStrings_split it, scanCSV_cells _ _ _ _ _ (by simp)]
  rw [show scanCSV false (if it.checked then "TRUE" else "FALSE").toList
      ([] ++ [it.name, it.quantity, it.unit, it.category, it.notes,
        if it.haveFlag then "TRUE" else "FALSE"]) rows ('\n' :: cs) =
    (if (([it.name, it.quantity, it.unit, it.category, it.notes,
        if it.haveFlag then "TRUE" else "FALSE"] ++
        [String.mk (if it.checked then "TRUE" else "FALSE").toList]).length > 1 ∨ rows = []) then
      scanCSV false [] [] (rows ++ [[it.name, it.quantity, it.unit, it.category, it.notes,
        if it.haveFlag then "TRUE" else "FALSE"] ++
        [String.mk (if it.checked then "TRUE" else "FALSE").toList]]) cs
    else
      scanCSV false [] ([it.name, it.quantity, it.unit, it.category, it.notes,
        if it.haveFlag then "TRUE" else "FALSE"] ++
        [String.mk (if it.checked then "TRUE" else "FALSE").toList]) rows cs) from rfl]
  rw [if_pos (by simp)]
  rfl

theorem scanCSV_row_eof (it : Item) (rows : List (List String)) :
    scanCSV false [] [] rows (fieldsChars (rowStrings it)) = rows ++ [rowStrings it] := by
  rw [rowStrings_split it, ← List.append_nil (fieldsChars _), scanCSV_cells _ _ _ _ [] (by simp)]
  rw [show scanCSV false (if it.checked then "TRUE" else "FALSE").toList
      ([] ++ [it.name, it.quantity, it.unit, it.category, it.notes,
        if it.haveFlag then "TRUE" else "FALSE"]) rows [] =
    (if ((if it.checked then "TRUE" else "FALSE").toList ≠ [] ∨
        ([] ++ [it.name, it.quantity, it.unit, it.category, it.notes,
          if it.haveFlag then "TRUE" else "FALSE"] : List String) ≠ []) then
      rows ++ [([] ++ [it.name, it.quantity, it.unit, it.category, it.notes,
        if it.haveFlag then "TRUE" else "FALSE"]) ++
        [String.mk (if it.checked then "TRUE" else "FALSE").toList]]
    else rows) from rfl]
  rw [if_pos (by simp)]
  rfl

theorem scanCSV_header (cs : List Char) :
    scanCSV false [] [] [] (csvHeader.toList ++ '\n' :: cs) =
      scanCSV false [] [] [["name", "quantity", "unit", "category", "notes", "have", "checked"]]
        cs := by
  rfl

theorem scanCSV_body (items : List Item) : ∀ (it0 : Item) (rows : List (List String)),
    scanCSV false [] [] rows
      (fieldsChars (rowStrings it0) ++ tailChars (items.map rowLine)) =
      rows ++ [rowStrings it0] ++ items.map rowStrings := by
  induction items with
  | nil =>
    intro it0 rows
    rw [show tailChars ([].map rowLine) = [] from rfl, List.append_nil, scanCSV_row_eof]
    simp
  | cons i is ih =>
    intro it0 rows
    rw [show tailChars ((i :: is).map rowLine) =
      '\n' :: ((rowLine i).toList ++ tailChars (is.map rowLine)) from rfl]
    rw [show fieldsChars (rowStrings it0) ++
        ('\n' :: ((rowLine i).toList ++ tailChars (is.map rowLine))) =
      fieldsChars (rowStrings it0) ++
        '\n' :: ((rowLine i).toList ++ tailChars (is.map rowLine)) from rfl]
    rw [scanCSV_row_nl it0 rows ((rowLine i).toList ++ tailChars (is.map rowLine))]
    rw [rowLine_toList i, ih i (rows ++ [rowStrings it0])]
    simp

theorem csvRows_toCSV (items : List Item) :
    csvRows (toCSV items) =
      ["name", "quantity", "unit", "category", "notes", "have", "checked"] ::
        items.map rowStrings := by
  cases items with
  | nil => decide
  | cons i is =>
    unfold csvRows toCSV
    rw [show (csvHeader :: (i :: is).map (fun it => joinWith "," ((rowStrings it).map csvEscape)))
      = csvHeader :: (i :: is).map rowLine from rfl]
    rw [joinLines_toList]
    rw [show tailChars ((i :: is).map rowLine) =
      '\n' :: ((rowLine i).toList ++ tailChars (is.map rowLine)) from rfl]
    rw [scanCSV_header ((rowLine i).toList ++ tailChars (is.map rowLine))]
    rw [rowLine_toList i, scanCSV_body is i _]
    simp

theorem buildRowObj_record (it : Item) :
    buildRowObj (["name", "quantity", "unit", "category", "notes", "have", "checked"].map
      (fun h => jsToLower (jsTrim h))) (rowStrings it) = itemToRecord it := rfl

theorem itemRecord_kept (it : Item) :
    (jsTrim (concatStrings ((itemToRecord it).map Prod.snd)) != "") = true := by
  rw [bne_iff_ne]
  cases h : it.haveFlag
  · apply jsTrim_ne_empty _ 'F' ?_ (by decide)
    simp [itemToRecord, concatStrings, toList_append, h]
  · apply jsTrim_ne_empty _ 'T' ?_ (by decide)
    simp [itemToRecord, concatStrings, toList_append, h]

/-- C9: decoding the encoder's output yields exactly one row mapping per item
whose recognized fields match the original item's values, booleans rendered
as TRUE/FALSE. -/
theorem csv_roundtrip (items : List Item) (hinv : ∀ it ∈ items, jsTrim it.name ≠ "") :
    parseCSV (toCSV items) = items.map itemToRecord ∧
    (parseCSV (toCSV items)).length = items.length ∧
    (∀ it ∈ items, objGet (itemToRecord it) "name" = it.name ∧
      objGet (itemToRecord it) "quantity" = it.quantity ∧
      objGet (itemToRecord it) "unit" = it.unit ∧
      objGet (itemToRecord it) "category" = it.category ∧
      objGet (itemToRecord it) "notes" = it.notes ∧
      objGet (itemToRecord it) "have" = (if it.haveFlag then "TRUE" else "FALSE") ∧
      objGet (itemToRecord it) "checked" = (if it.checked then "TRUE" else "FALSE")) := by
  have hmain : parseCSV (toCSV items) = items.map itemToRecord := by
    unfold parseCSV
    rw [csvRows_toCSV]
    rw [show ((["name", "quantity", "unit", "category", "notes", "have", "checked"] ::
      items.map rowStrings) : List (List String)) =
      ["name", "quantity", "unit", "category", "notes", "have", "checked"] ::
        items.map rowStrings from rfl]
    dsimp only
    rw [List.map_map]
    have hcongr : items.map ((buildRowObj
        (["name", "quantity", "unit", "category", "notes", "have", "checked"].map
          (fun h => jsToLower (jsTrim h)))) ∘ rowStrings) = items.map itemToRecord :=
      List.map_congr_left (fun it _ => buildRowObj_record it)
    rw [hcongr]
    exact List.filter_eq_self.mpr (fun r hr => by
      obtain ⟨it, _, hit⟩ := List.mem_map.mp hr
      rw [← hit]
      exact itemRecord_kept it)
  exact ⟨hmain, by rw [hmain, List.length_map], fun it _ => ⟨rfl, rfl, rfl, rfl, rfl, rfl, rfl⟩⟩

/-- An item exercising quoting: comma, doubled quotes and an embedded
newline. -/
def itemWeird : Item :=
  ⟨"z1", "pa\"sta, dry", "1.5", "lb", "Dry Goods / Pantry", "brand \"X\"\nor Y", false, true, 9⟩

/-- Witness for `csv_roundtrip` on two items, one containing a comma, quotes
and an embedded newline. -/
theorem csv_roundtrip_witness :
    jsTrim itemMilk1.name ≠ "" ∧ jsTrim itemWeird.name ≠ "" ∧
    parseCSV (toCSV [itemMilk1, itemWeird]) = [itemMilk1, itemWeird].map itemToRecord ∧
    objGet (itemToRecord itemWeird) "name" = itemWeird.name :=
  ⟨by decide, by decide, (csv_roundtrip [itemMilk1, itemWeird] (by decide)).1,
   ((csv_roundtrip [itemMilk1, itemWeird] (by decide)).2.2 itemWeird (by decide)).1⟩
